import Mathlib

/-!
Verification of the GCBR pipeline (`src/main.py`).

Shallow embedding conventions:

* Python `str` values are modelled as `PyStr := List Char` (the payloads of
  this program are ASCII text).
* Files are modelled at line granularity: a writer that executes
  `file.write(f"...\n")` produces a `List PyStr` of the written lines (each
  including its trailing `'\n'`), and `for line in file` iterates over that
  list.  This is exactly Python's behaviour whenever the written data
  contains no `'\n'` character; the round-trip theorems carry that
  hypothesis explicitly.
* Python machine-level details that cannot arise here (unicode whitespace,
  underscore digit separators in `int()`, float timestamps) are out of the
  modelled input space and noted at the relevant definition.
* A Python expression that raises an exception is modelled as `none` /
  an error constructor of `Except`.
-/

abbrev PyStr := List Char

/-- Python `str.isspace` characters in the ASCII range (`str.strip` with no
argument strips exactly these; unicode whitespace is outside the modelled
input space). -/
def pyIsSpace (c : Char) : Bool :=
  c = ' ' || c = '\t' || c = '\n' || c = '\r' || c = '\x0b' || c = '\x0c'

/-- Python `s.strip()`: remove leading and trailing whitespace. -/
def pyStrip (s : PyStr) : PyStr :=
  ((s.dropWhile pyIsSpace).reverse.dropWhile pyIsSpace).reverse

/-- Prepend a character to the first segment of a split result. -/
def consHead (c : Char) : List PyStr → List PyStr
  | [] => [[c]]
  | seg :: segs => (c :: seg) :: segs

/-- Python `s.split(': ')` (left-to-right, non-overlapping scan for the
two-character separator `": "`). -/
def pySplitCS : PyStr → List PyStr
  | [] => [[]]
  | ':' :: ' ' :: rest => [] :: pySplitCS rest
  | c :: rest => consHead c (pySplitCS rest)

/-- Python `s.split(',')`. -/
def pySplitComma : PyStr → List PyStr
  | [] => [[]]
  | ',' :: rest => [] :: pySplitComma rest
  | c :: rest => consHead c (pySplitComma rest)

/-- Python `sep.join(xs)`. -/
def pyJoin (sep : PyStr) : List PyStr → PyStr
  | [] => []
  | [n] => n
  | n :: ns => n ++ sep ++ pyJoin sep ns

/-- Does the string contain the two-character substring `": "`?  (Used to
state separator-freeness hypotheses.) -/
def hasCS : PyStr → Bool
  | [] => false
  | ':' :: ' ' :: _ => true
  | _ :: rest => hasCS rest

/-- Python file line iteration (`for line in file` / `readlines()`): split
the raw content at `'\n'`, keeping the newline on every line; a final
fragment without a newline is kept, an empty final fragment is not. -/
def pyReadLinesGo (acc : PyStr) : PyStr → List PyStr
  | [] => if acc.isEmpty then [] else [acc.reverse]
  | c :: rest =>
    if c = '\n' then (acc.reverse ++ ['\n']) :: pyReadLinesGo [] rest
    else pyReadLinesGo (c :: acc) rest

def pyReadLines (s : PyStr) : List PyStr := pyReadLinesGo [] s

/-- ASCII decimal digit (the digits accepted by Python `int()` on the
ASCII payloads modelled here). -/
def pyIsDigit (c : Char) : Bool := 48 ≤ c.toNat && c.toNat ≤ 57

/-- Numeric value of a digit string (most significant digit first). -/
def digitsVal (ds : List Char) : Nat :=
  ds.foldl (fun a c => 10 * a + (c.toNat - 48)) 0

/-- Python `int(s)`: strip whitespace, allow one optional sign, then a
non-empty run of decimal digits; anything else raises `ValueError`,
modelled as `none`.  (Underscore digit separators and non-ASCII digits do
not occur in this program's data and are outside the modelled space.) -/
def pyIntParse (s : PyStr) : Option Int :=
  match pyStrip s with
  | [] => none
  | '+' :: ds =>
    if !ds.isEmpty && ds.all pyIsDigit then some (digitsVal ds) else none
  | '-' :: ds =>
    if !ds.isEmpty && ds.all pyIsDigit then some (-(digitsVal ds : Int)) else none
  | c :: ds =>
    if pyIsDigit c && ds.all pyIsDigit then some (digitsVal (c :: ds)) else none

/-- The character of a decimal digit. -/
def digitChar (d : Nat) : Char := Char.ofNat (48 + d)

/-- Decimal digits of `n`, most significant first; structural on a fuel
argument (`fuel ≥ n` suffices, maintained by the wrapper below). -/
def natDigitsGo : Nat → Nat → List Char
  | 0, n => [digitChar n]
  | fuel + 1, n =>
    if n < 10 then [digitChar n]
    else natDigitsGo fuel (n / 10) ++ [digitChar (n % 10)]

def natDigits (n : Nat) : List Char := natDigitsGo n n

/-- Python `str(n)` for an `int` (no sign for `n ≥ 0`, leading `'-'`
otherwise, no leading zeros, `"0"` for zero). -/
def intToStr (n : Int) : PyStr :=
  if n < 0 then '-' :: natDigits n.natAbs else natDigits n.toNat

/-- Python `s.find(sub)` scanning from index `i`. -/
def pyFindGo (sub : PyStr) (i : Nat) : PyStr → Int
  | [] => if sub.isEmpty then (i : Int) else -1
  | c :: rest =>
    if sub.isPrefixOf (c :: rest) then (i : Int) else pyFindGo sub (i + 1) rest

/-- Python `s.find(sub)`: index of the first occurrence, `-1` if absent. -/
def pyFind (sub s : PyStr) : Int := pyFindGo sub 0 s

/-- Python slicing `s[a:b]` with negative-index wraparound and clamping. -/
def pySlice (s : PyStr) (a b : Int) : PyStr :=
  let n : Int := s.length
  let a1 := if a < 0 then a + n else a
  let b1 := if b < 0 then b + n else b
  (s.take (min b1 n).toNat).drop (max a1 0).toNat

/-- Python `dict` lookup `m.get(k)` on an insertion-ordered association
list (also used for `k in m`: membership is `(alGet m k).isSome`). -/
def alGet [DecidableEq α] : List (α × β) → α → Option β
  | [], _ => none
  | kv :: rest, x => if kv.1 = x then some kv.2 else alGet rest x

/-- Python `dict` assignment `m[k] = v`: update in place if the key exists
(keeping its original position), otherwise append at the end. -/
def alSet [DecidableEq α] (m : List (α × β)) (k : α) (v : β) : List (α × β) :=
  if (alGet m k).isSome then m.map (fun p => if p.1 = k then (k, v) else p)
  else m ++ [(k, v)]

/-! ## The source functions of `src/main.py` -/

inductive FileError
  | notFound
deriving DecidableEq

/-- A file system, for the functions that open files by path: the content
(raw characters) stored under each path. -/
abbrev FileSys := List (PyStr × PyStr)

/-- `read_pmids` (main.py lines 9-12): open the file (raising
`FileNotFoundError` if the path is absent) and return
`[line.strip() for line in file.readlines()]`. -/
def read_pmids (fs : FileSys) (file_path : PyStr) : Except FileError (List PyStr) :=
  match alGet fs file_path with
  | none => .error .notFound
  | some content => .ok ((pyReadLines content).map pyStrip)

/-- `is_recent_file` (main.py lines 51-55): `False` if the path does not
exist, otherwise `datetime.now() - mtime < timedelta(days=days)`.
Timestamps are modelled in whole seconds (`86400` per day); `datetime`
arithmetic is exact, so the unit is irrelevant to the comparison. -/
def is_recent_file (mtimes : List (PyStr × Int)) (now : Int)
    (file_path : PyStr) (days : Int) : Bool :=
  match alGet mtimes file_path with
  | none => false
  | some file_mod_time => now - file_mod_time < days * 86400

/-- The body parsing step of `fetch_citation_count` (main.py lines 88-91)
on an HTTP-200 response body:
`start = text.find('<hitCount>') + len('<hitCount>')`,
`end = text.find('</hitCount>')`, `int(text[start:end])`.
`none` models the `ValueError` raised by `int` on a non-numeric slice. -/
def fetch_citation_count_parse (text : PyStr) : Option Int :=
  let start := pyFind ("<hitCount>".toList) text + ("<hitCount>".toList).length
  let stop := pyFind ("</hitCount>".toList) text
  pyIntParse (pySlice text start stop)

/-- One line of the names artifact, as read by
`write_names_with_citation_counts` (main.py lines 109-114):
`pmid, names_str = line.strip().split(': ')` then
`[name.strip() for name in names_str.split(',')]`; the `ValueError`
raised when the unpacking does not yield exactly two parts is `none`. -/
def parseNamesLine (line : PyStr) : Option (PyStr × List PyStr) :=
  match pySplitCS (pyStrip line) with
  | [pmid, names_str] => some (pmid, (pySplitComma names_str).map pyStrip)
  | _ => none

/-- One line of the citation-counts artifact (main.py lines 119-124):
`pmid, count = line.strip().split(': ')` then `int(count)`; a failing
unpack or a failing `int` raises `ValueError`, modelled as `none`. -/
def parseCountLine (line : PyStr) : Option (PyStr × Int) :=
  match pySplitCS (pyStrip line) with
  | [pmid, count] =>
    match pyIntParse count with
    | some n => some (pmid, n)
    | none => none
  | _ => none

/-- The names-file reading loop of `write_names_with_citation_counts`
(main.py lines 106-114).  The second component collects the lines skipped
with a `"Skipping line due to format issue"` warning. -/
def parseNamesFile (lines : List PyStr) : List (PyStr × List PyStr) × List PyStr :=
  lines.foldl
    (fun st line =>
      match parseNamesLine line with
      | some pr => (alSet st.1 pr.1 pr.2, st.2)
      | none => (st.1, st.2 ++ [line]))
    ([], [])

/-- The counts-file reading loop of `write_names_with_citation_counts`
(main.py lines 117-124), with the skipped-line warnings. -/
def parseCountsFile (lines : List PyStr) : List (PyStr × Int) × List PyStr :=
  lines.foldl
    (fun st line =>
      match parseCountLine line with
      | some pr => (alSet st.1 pr.1 pr.2, st.2)
      | none => (st.1, st.2 ++ [line]))
    ([], [])

/-- The inner accumulation of the aggregation loop (main.py lines 131-134):
`if name not in names_to_citation_counts: names_to_citation_counts[name] = 0`
then `names_to_citation_counts[name] += count`. -/
def addName (m : List (PyStr × Int)) (name : PyStr) (count : Int) :
    List (PyStr × Int) :=
  let m1 := if (alGet m name).isSome then m else m ++ [(name, 0)]
  m1.map fun p => if p.1 = name then (p.1, p.2 + count) else p

/-- The aggregation loop of `write_names_with_citation_counts`
(main.py lines 127-134): for each `(pmid, names)` of the names map in
insertion order, if `pmid` is in the counts map, add its count to every
name of the list. -/
def aggregate (pmid_to_names : List (PyStr × List PyStr))
    (pmid_to_citation_count : List (PyStr × Int)) : List (PyStr × Int) :=
  pmid_to_names.foldl
    (fun acc pr =>
      match alGet pmid_to_citation_count pr.1 with
      | some count => pr.2.foldl (fun a name => addName a name count) acc
      | none => acc)
    []

/-- `write_results` (main.py lines 44-48): one
`f"{pmid}: {', '.join(names)}\n"` line per entry, in insertion order. -/
def write_results (results : List (PyStr × List PyStr)) : List PyStr :=
  results.map fun pr => pr.1 ++ ':' :: ' ' :: (pyJoin (',' :: ' ' :: []) pr.2 ++ ['\n'])

/-- `write_citation_counts` (main.py lines 98-101): one
`f"{pmid}: {count}\n"` line per entry. -/
def write_citation_counts (citation_counts : List (PyStr × Int)) : List PyStr :=
  citation_counts.map fun pr => pr.1 ++ ':' :: ' ' :: (intToStr pr.2 ++ ['\n'])

/-- `write_names_with_citation_counts` (main.py lines 104-139) end to end:
parse the two artifacts, aggregate, and render the output file
(`f"{name}: {count}\n"` per entry).  Returns the output lines and the
accumulated skipped-line warnings of both parsing loops. -/
def write_names_with_citation_counts (names_file citation_counts_file : List PyStr) :
    List PyStr × List PyStr :=
  let nm := parseNamesFile names_file
  let cm := parseCountsFile citation_counts_file
  ((aggregate nm.1 cm.1).map (fun pr => pr.1 ++ ':' :: ' ' :: (intToStr pr.2 ++ ['\n'])),
    nm.2 ++ cm.2)

/-! ## The annotation payload and `main`'s results loop -/

/-- JSON values as returned by `response.json()` (numbers restricted to
integers; the annotation payloads carry none). -/
inductive Json
  | null
  | bool (b : Bool)
  | num (n : Int)
  | str (s : PyStr)
  | arr (elems : List Json)
  | obj (fields : List (PyStr × Json))

/-- Python truthiness (`if annotations:`) of a JSON value. -/
def pyTruthy : Json → Bool
  | .null => false
  | .bool b => b
  | .num n => n != 0
  | .str s => !s.isEmpty
  | .arr elems => !elems.isEmpty
  | .obj fields => !fields.isEmpty

/-- Python `for x in j`: iteration over a JSON list; iterating any other
value raises (`TypeError`, or walks dict keys — neither occurs for the
list-shaped annotation payloads), modelled as `none`. -/
def jsonElems : Json → Option (List Json)
  | .arr elems => some elems
  | _ => none

/-- Python `j.get(k, dflt)`: `AttributeError` (`none`) unless `j` is a
dict. -/
def jsonGetD (j : Json) (k : PyStr) (dflt : Json) : Option Json :=
  match j with
  | .obj fields => some ((alGet fields k).getD dflt)
  | _ => none

/-- Python `j[k]` on a dict: `KeyError` / `TypeError` modelled as `none`. -/
def jsonIndex (j : Json) (k : PyStr) : Option Json :=
  match j with
  | .obj fields => alGet fields k
  | _ => none

/-- `extract_names` (main.py lines 36-41): for every `annotation` of the
payload, for every `ann` of `annotation.get('annotations', [])`, extend
the result with `[tag['name'] for tag in ann.get('tags', [])]`. -/
def extract_names (annotations : Json) : Option (List Json) := do
  let anns ← jsonElems annotations
  anns.foldlM
    (fun names annotation => do
      let subs ← jsonElems (← jsonGetD annotation ("annotations".toList) (.arr []))
      subs.foldlM
        (fun names2 ann => do
          let tags ← jsonElems (← jsonGetD ann ("tags".toList) (.arr []))
          tags.foldlM
            (fun acc tag => do
              let n ← jsonIndex tag ("name".toList)
              pure (acc ++ [n]))
            names2)
        names)
    []

/-- The results-building loop of `main` (main.py lines 185-188): over the
`zip(pmids, annotations_list)` pairs, `if annotations:` store
`results[pmid] = extract_names(annotations)`.  A pair's second component
is `none` when the fetch returned `None` (non-200 response). -/
def buildResults (pairs : List (PyStr × Option Json)) :
    List (PyStr × Option (List Json)) :=
  pairs.foldl
    (fun results pr =>
      match pr.2 with
      | some annotations =>
        if pyTruthy annotations then alSet results pr.1 (extract_names annotations)
        else results
      | none => results)
    []

/-! ## The retry policy of the two fetchers -/

/-- What one attempt of a fetch coroutine does. -/
inductive FetchOutcome (α : Type)
  | raised
  | returns (a : α)

/-- The caller-visible result of a retried fetch. -/
inductive RetryResult (α : Type)
  | ok (a : α)
  | retryExhausted

/-- Modelled from the spec: the retry machinery itself lives in the
third-party `tenacity` library; `src/main.py` only carries the
configuration `@retry(wait=wait_exponential(multiplier=1, min=4, max=10),
stop=stop_after_attempt(5))` on both fetchers (lines 15 and 74).  Per the
spec, the wait before retry `attempt + 1` grows exponentially with the
attempt number and is clamped between the minimum and maximum delay. -/
def wait_exponential (multiplier lo hi attempt : Nat) : Nat :=
  min hi (max lo (multiplier * 2 ^ attempt))

/-- Modelled from the spec: run the decorated coroutine for up to `budget`
attempts (numbered from `attempt`), sleeping the exponential wait between
attempts, around the whole request; when every attempt raises, the caller
receives the distinct `retryExhausted` signal (tenacity's `RetryError`).
Returns (result, waits slept, attempts made). -/
def retryGo (outcomes : Nat → FetchOutcome α) (attempt : Nat) :
    Nat → RetryResult α × List Nat × Nat
  | 0 => (.retryExhausted, [], 0)
  | budget + 1 =>
    match outcomes attempt with
    | .returns a => (.ok a, [], 1)
    | .raised =>
      if budget = 0 then (.retryExhausted, [], 1)
      else
        let r := retryGo outcomes (attempt + 1) budget
        (r.1, wait_exponential 1 4 10 attempt :: r.2.1, r.2.2 + 1)

/-- Modelled from the spec: a fetcher call under the decorator
`@retry(wait=wait_exponential(multiplier=1, min=4, max=10),
stop=stop_after_attempt(5))`, attempts numbered 1..5. -/
def retry_fetch (outcomes : Nat → FetchOutcome α) : RetryResult α × List Nat × Nat :=
  retryGo outcomes 1 5

/-! ## Specification-side definitions (for stating the claims) -/

/-- Number of occurrences of `x` in a name list (duplicates within one
PMID's list each contribute). -/
def countOcc (x : PyStr) : List PyStr → Nat
  | [] => 0
  | n :: ns => (if n = x then 1 else 0) + countOcc x ns

/-- The total citation weight the spec assigns to name `x`: over every
entry of the names map whose PMID has a citation count, that count times
the number of occurrences of `x` in the entry's name list. -/
def specTotal (nm : List (PyStr × List PyStr)) (cm : List (PyStr × Int))
    (x : PyStr) : Int :=
  (nm.map fun pr =>
    match alGet cm pr.1 with
    | some c => c * (countOcc x pr.2 : Int)
    | none => 0).sum

/-- Append an element unless it was already seen. -/
def insertFirstSeen (acc : List PyStr) (n : PyStr) : List PyStr :=
  if n ∈ acc then acc else acc ++ [n]

/-- First-occurrence order of a traversal sequence. -/
def firstSeenOrder (l : List PyStr) : List PyStr := l.foldl insertFirstSeen []

/-- Well-formedness of an artifact key for the round-trip claim: already
trimmed, free of the `": "` separator, and newline-free (the newline
condition marks the line-granularity file model). -/
def WfKey (k : PyStr) : Prop := pyStrip k = k ∧ hasCS k = false ∧ '\n' ∉ k

/-- Well-formedness of a written name for the round-trip claim: trimmed,
non-empty, free of the `": "` separator, of the `','` list separator and
of newlines. -/
def WfName (n : PyStr) : Prop :=
  pyStrip n = n ∧ n ≠ [] ∧ hasCS n = false ∧ ',' ∉ n ∧ '\n' ∉ n

instance : DecidablePred WfKey := fun k => by
  unfold WfKey
  infer_instance

instance : DecidablePred WfName := fun n => by
  unfold WfName
  infer_instance

/-- The loop body shared by the two artifact-reading loops of
`write_names_with_citation_counts`: parse a line with `p`, store the pair
on success, log the line as skipped on failure. -/
def lineFoldStep (p : PyStr → Option (PyStr × β))
    (st : List (PyStr × β) × List PyStr) (line : PyStr) :
    List (PyStr × β) × List PyStr :=
  match p line with
  | some pr => (alSet st.1 pr.1 pr.2, st.2)
  | none => (st.1, st.2 ++ [line])

/-- The map component of `lineFoldStep` alone. -/
def lineMapStep (p : PyStr → Option (PyStr × β))
    (acc : List (PyStr × β)) (line : PyStr) : List (PyStr × β) :=
  match p line with
  | some pr => alSet acc pr.1 pr.2
  | none => acc

/-! ## Conditional equation lemmas for the pattern-matching string functions -/

theorem pySplitCS_cons_ne (c : Char) (rest : PyStr)
    (h : ∀ rest2 : PyStr, c = ':' → rest = ' ' :: rest2 → False) :
    pySplitCS (c :: rest) = consHead c (pySplitCS rest) := by
  rw [pySplitCS.eq_def]
  split
  · rename_i heq; cases heq
  · rename_i heq; exfalso; cases heq; exact h _ rfl rfl
  · rename_i heq; cases heq; rfl

theorem hasCS_cons_ne (c : Char) (rest : PyStr)
    (h : ∀ rest2 : PyStr, c = ':' → rest = ' ' :: rest2 → False) :
    hasCS (c :: rest) = hasCS rest := by
  rw [hasCS.eq_def]
  split
  · rename_i heq; cases heq
  · rename_i heq; exfalso; cases heq; exact h _ rfl rfl
  · rename_i heq; cases heq; rfl

theorem pySplitComma_cons_ne (c : Char) (rest : PyStr) (h : ¬c = ',') :
    pySplitComma (c :: rest) = consHead c (pySplitComma rest) := by
  rw [pySplitComma.eq_def]
  split
  · rename_i heq; cases heq
  · rename_i heq; exfalso; cases heq; exact h rfl
  · rename_i heq; cases heq; rfl

/-! ## Association-list lemmas -/

theorem alGet_append_some {m1 m2 : List (α × β)} [DecidableEq α] {x : α} {v : β}
    (h : alGet m1 x = some v) : alGet (m1 ++ m2) x = some v := by
  induction m1 with
  | nil => simp [alGet] at h
  | cons kv tl ih =>
    by_cases hk : kv.1 = x
    · simpa [alGet, hk] using by simpa [alGet, hk] using h
    · simp only [alGet, if_neg hk, List.cons_append] at h ⊢
      exact ih h

theorem alGet_append_none {m1 m2 : List (α × β)} [DecidableEq α] {x : α}
    (h : alGet m1 x = none) : alGet (m1 ++ m2) x = alGet m2 x := by
  induction m1 with
  | nil => simp [alGet]
  | cons kv tl ih =>
    by_cases hk : kv.1 = x
    · simp [alGet, hk] at h
    · simp only [alGet, if_neg hk, List.cons_append] at h ⊢
      exact ih h

theorem alGet_isSome_iff [DecidableEq α] (m : List (α × β)) (x : α) :
    (alGet m x).isSome = true ↔ x ∈ m.map Prod.fst := by
  induction m with
  | nil => simp [alGet]
  | cons kv tl ih =>
    by_cases hk : kv.1 = x
    · subst hk; simp [alGet]
    · have hk2 : ¬x = kv.1 := fun h => hk h.symm
      simp [alGet, hk, hk2, ih]

theorem alGet_eq_none_iff [DecidableEq α] (m : List (α × β)) (x : α) :
    alGet m x = none ↔ x ∉ m.map Prod.fst := by
  rw [← alGet_isSome_iff]
  cases alGet m x <;> simp


/-! ## C2: citation-count payload parsing -/

/-- C2: the claim demands that every marker-absent payload fail with a
parse error, and the spec's design notes direct the same; the code
instead silently returns an integer for an HTTP-200 body with no
`<hitCount>` markers at all, because the unchecked `find` results `-1`
select the slice `text[9:-1]`.  On the body `"0123456789876"` that slice
is `"987"`, so `fetch_citation_count` silently returns `987` instead of
raising a parse error (while the well-formed
`"xxx<hitCount>42</hitCount>yyy"` does parse to `42`). -/
theorem c2_hitcount_markerless_silent_int :
    fetch_citation_count_parse ("0123456789876".toList) = some 987 ∧
      fetch_citation_count_parse ("xxx<hitCount>42</hitCount>yyy".toList) = some 42 :=
  ⟨rfl, rfl⟩

/-! ## C5: the staleness gate -/

/-- C5: for every window value greater than zero, `is_recent_file` is
`false` on a missing path, and `true` exactly when the path exists with a
modification time less than the window before `now`. -/
theorem c5_staleness_gate (mtimes : List (PyStr × Int)) (now : Int)
    (file_path : PyStr) (days : Int) (h : 0 < days) :
    (alGet mtimes file_path = none → is_recent_file mtimes now file_path days = false) ∧
      (is_recent_file mtimes now file_path days = true ↔
        ∃ t, alGet mtimes file_path = some t ∧ now - t < days * 86400) := by
  cases hget : alGet mtimes file_path with
  | none => simp [is_recent_file, hget]
  | some t => simp [is_recent_file, hget]

/-- C5 witness: a concrete fresh file (mtime 40 seconds before `now`,
window 7 days) and the hypothesis `0 < 7` discharged. -/
theorem c5_staleness_gate_witness :
    (0 : Int) < 7 ∧
      is_recent_file [("pmids_with_names.txt".toList, 10)] 50
        ("pmids_with_names.txt".toList) 7 = true :=
  ⟨by decide,
    (c5_staleness_gate [("pmids_with_names.txt".toList, 10)] 50
      ("pmids_with_names.txt".toList) 7 (by decide)).2.mpr
      ⟨10, rfl, by decide⟩⟩

/-! ## C8: the aggregator is a deterministic function of its two inputs -/

/-- C8: running `write_names_with_citation_counts` twice on the same
unchanged pair of artifact files yields a byte-identical report — the
embedding is a pure function of the two files' contents (the
insertion-ordered association list captures Python's deterministic dict
order), so equal inputs give equal output lines. -/
theorem c8_aggregator_deterministic (nf cf nf2 cf2 : List PyStr)
    (h1 : nf = nf2) (h2 : cf = cf2) :
    write_names_with_citation_counts nf cf = write_names_with_citation_counts nf2 cf2 := by
  rw [h1, h2]

/-- C8 witness: two runs on a concrete unchanged artifact pair, with the
byte-identical output lines also computed explicitly. -/
theorem c8_aggregator_deterministic_witness :
    write_names_with_citation_counts
        ["pmid1: GeneX, GeneY\n".toList, "pmid2: GeneX\n".toList]
        ["pmid1: 10\n".toList, "pmid2: 5\n".toList] =
      write_names_with_citation_counts
        ["pmid1: GeneX, GeneY\n".toList, "pmid2: GeneX\n".toList]
        ["pmid1: 10\n".toList, "pmid2: 5\n".toList] ∧
      (write_names_with_citation_counts
        ["pmid1: GeneX, GeneY\n".toList, "pmid2: GeneX\n".toList]
        ["pmid1: 10\n".toList, "pmid2: 5\n".toList]).1 =
        ["GeneX: 15\n".toList, "GeneY: 10\n".toList] :=
  ⟨c8_aggregator_deterministic _ _ _ _ rfl rfl, by decide⟩

/-! ## C7: the retry policy of both fetchers (spec-modelled) -/

theorem retryGo_attempts_le (o : Nat → FetchOutcome α) :
    ∀ b a, (retryGo o a b).2.2 ≤ b := by
  intro b
  induction b with
  | zero => intro a; simp [retryGo]
  | succ b ih =>
    intro a
    simp only [retryGo]
    cases o a with
    | returns v => simp
    | raised =>
      by_cases hb : b = 0
      · simp [hb]
      · simp only [if_neg hb]
        have := ih (a + 1)
        omega

theorem wait_exponential_bounds (attempt : Nat) :
    4 ≤ wait_exponential 1 4 10 attempt ∧ wait_exponential 1 4 10 attempt ≤ 10 := by
  unfold wait_exponential
  omega

theorem retryGo_delays_bounded (o : Nat → FetchOutcome α) :
    ∀ b a d, d ∈ (retryGo o a b).2.1 → 4 ≤ d ∧ d ≤ 10 := by
  intro b
  induction b with
  | zero => intro a d hd; simp [retryGo] at hd
  | succ b ih =>
    intro a d hd
    cases ho : o a with
    | returns v => simp [retryGo, ho] at hd
    | raised =>
      by_cases hb : b = 0
      · simp [retryGo, ho, hb] at hd
      · simp only [retryGo, ho, if_neg hb, List.mem_cons] at hd
        rcases hd with rfl | hd
        · exact wait_exponential_bounds a
        · exact ih (a + 1) d hd

theorem retryGo_all_raised (o : Nat → FetchOutcome α) :
    ∀ b a, (∀ k, a ≤ k → k < a + b → o k = .raised) →
      (retryGo o a b).1 = .retryExhausted := by
  intro b
  induction b with
  | zero => intro a _; simp [retryGo]
  | succ b ih =>
    intro a h
    have ha : o a = .raised := h a le_rfl (by omega)
    simp only [retryGo, ha]
    by_cases hb : b = 0
    · simp [hb]
    · simp only [if_neg hb]
      exact ih (a + 1) fun k h1 h2 => h k (by omega) (by omega)

/-- C7: each fetcher makes at most 5 attempts; every backoff delay slept
between attempts lies between the minimum 4 and the maximum 10; and when
all 5 attempts fail the caller gets the `retryExhausted` signal, a value
distinct from every `ok` result (in particular from `ok none`, the "no
annotations" value a non-200 response produces).  The retry loop is
modelled from the spec because it lives in the tenacity library; the
configuration (5 attempts, exponential wait clamped to [4, 10], wrapped
around the whole request) is the decorator in `src/main.py` lines 15/74. -/
theorem c7_retry_policy (o : Nat → FetchOutcome (Option Json)) :
    (retry_fetch o).2.2 ≤ 5 ∧
      (∀ d ∈ (retry_fetch o).2.1, 4 ≤ d ∧ d ≤ 10) ∧
      ((∀ k, 1 ≤ k → k ≤ 5 → o k = .raised) →
        (retry_fetch o).1 = .retryExhausted ∧
          ∀ v : Option Json, RetryResult.retryExhausted ≠ RetryResult.ok v) := by
  refine ⟨retryGo_attempts_le o 5 1, fun d hd => retryGo_delays_bounded o 5 1 d hd, fun h => ⟨?_, ?_⟩⟩
  · exact retryGo_all_raised o 5 1 fun k h1 h2 => h k h1 (by omega)
  · intro v hv
    cases hv

/-- C7 witness: a fetch whose every attempt raises; the all-fail
hypothesis is discharged, and the concrete run makes exactly 5 attempts,
sleeps the clamped exponential delays `[4, 4, 8, 10]`, and surfaces
`retryExhausted`. -/
theorem c7_retry_policy_witness :
    (retry_fetch (fun _ => FetchOutcome.raised (α := Option Json))).1 =
        RetryResult.retryExhausted ∧
      (retry_fetch (fun _ => FetchOutcome.raised (α := Option Json))).2.1 = [4, 4, 8, 10] ∧
      (retry_fetch (fun _ => FetchOutcome.raised (α := Option Json))).2.2 = 5 :=
  ⟨((c7_retry_policy fun _ => FetchOutcome.raised).2.2 fun _ _ _ => rfl).1, rfl, rfl⟩


/-! ## Aggregation lemmas (C1, C9) -/

theorem alGet_map_bump (m : List (PyStr × Int)) (n : PyStr) (c : Int) (x : PyStr) :
    alGet (m.map fun p => if p.1 = n then (p.1, p.2 + c) else p) x =
      if x = n then (alGet m x).map (· + c) else alGet m x := by
  induction m with
  | nil =>
    simp only [List.map_nil, alGet]
    split <;> rfl
  | cons kv tl ih =>
    obtain ⟨k, v⟩ := kv
    simp only [List.map_cons]
    by_cases hkn : k = n
    · subst hkn
      by_cases hkx : k = x
      · subst hkx
        simp [alGet]
      · have haux : ¬x = k := fun h => hkx h.symm
        simp [alGet, hkx, haux, ih]
    · by_cases hkx : k = x
      · subst hkx
        simp [alGet, hkn]
      · simp [alGet, hkn, hkx, ih]

theorem alGet_addName (m : List (PyStr × Int)) (n : PyStr) (c : Int) (x : PyStr) :
    alGet (addName m n c) x =
      if x = n then some ((alGet m n).getD 0 + c) else alGet m x := by
  unfold addName
  cases hget : alGet m n with
  | some v =>
    simp only [hget, Option.isSome_some, if_pos]
    rw [alGet_map_bump]
    by_cases hx : x = n
    · subst hx
      simp [hget]
    · simp [hx]
  | none =>
    simp only [hget, Option.isSome_none, Bool.false_eq_true, if_false]
    rw [alGet_map_bump]
    by_cases hx : x = n
    · subst hx
      rw [if_pos rfl, if_pos rfl, alGet_append_none hget]
      simp [alGet]
    · rw [if_neg hx, if_neg hx]
      cases hx2 : alGet m x with
      | some v => exact alGet_append_some hx2
      | none =>
        rw [alGet_append_none hx2]
        have hnx : ¬n = x := fun h => hx h.symm
        simp [alGet, hnx]

theorem countOcc_eq_zero (x : PyStr) (ns : List PyStr) (h : x ∉ ns) :
    countOcc x ns = 0 := by
  induction ns with
  | nil => rfl
  | cons n tl ih =>
    simp only [List.mem_cons, not_or] at h
    have hn : ¬n = x := fun he => h.1 he.symm
    simp [countOcc, hn, ih h.2]

theorem alGet_foldNames (ns : List PyStr) (c : Int) (m : List (PyStr × Int)) (x : PyStr) :
    alGet (ns.foldl (fun a name => addName a name c) m) x =
      if x ∈ ns then some ((alGet m x).getD 0 + c * (countOcc x ns : Int))
      else alGet m x := by
  induction ns generalizing m with
  | nil => simp
  | cons n tl ih =>
    simp only [List.foldl_cons]
    rw [ih]
    by_cases hxn : x = n
    · subst hxn
      rw [alGet_addName, if_pos rfl]
      by_cases hmem : x ∈ tl
      · rw [if_pos hmem, if_pos (List.mem_cons_self x tl)]
        simp only [Option.getD_some, countOcc, if_pos rfl]
        congr 1
        push_cast
        ring
      · rw [if_neg hmem, if_pos (List.mem_cons_self x tl)]
        simp [countOcc, countOcc_eq_zero x tl hmem]
    · have hne : ¬x ∈ [n] := by simp [hxn]
      rw [alGet_addName, if_neg hxn]
      have hcons : (x ∈ n :: tl) = (x ∈ tl) := by
        simp [List.mem_cons, hxn]
      by_cases hmem : x ∈ tl
      · rw [if_pos hmem, if_pos (by simp [hxn, hmem] : x ∈ n :: tl)]
        have hnx : ¬n = x := fun h => hxn h.symm
        simp [countOcc, hnx]
      · rw [if_neg hmem, if_neg (by simp [hxn, hmem] : ¬x ∈ n :: tl)]

theorem specTotal_nil (cm : List (PyStr × Int)) (x : PyStr) :
    specTotal [] cm x = 0 := rfl

theorem specTotal_cons (pr : PyStr × List PyStr) (nm : List (PyStr × List PyStr))
    (cm : List (PyStr × Int)) (x : PyStr) :
    specTotal (pr :: nm) cm x =
      (match alGet cm pr.1 with
        | some c => c * (countOcc x pr.2 : Int)
        | none => 0) + specTotal nm cm x := by
  simp [specTotal]

theorem specTotal_eq_zero (nm : List (PyStr × List PyStr)) (cm : List (PyStr × Int))
    (x : PyStr) (h : ¬∃ pr ∈ nm, (alGet cm pr.1).isSome = true ∧ x ∈ pr.2) :
    specTotal nm cm x = 0 := by
  induction nm with
  | nil => rfl
  | cons pr tl ih =>
    push_neg at h
    rw [specTotal_cons]
    have htl : specTotal tl cm x = 0 := by
      apply ih
      push_neg
      intro q hq
      exact h q (List.mem_cons_of_mem pr hq)
    rw [htl]
    cases hcm : alGet cm pr.1 with
    | none => simp
    | some c =>
      have hx : x ∉ pr.2 := by
        have := h pr (List.mem_cons_self pr tl)
        simpa [hcm] using this
      rw [countOcc_eq_zero x pr.2 hx]
      simp

theorem alGet_aggregate_general (cm : List (PyStr × Int)) (nm : List (PyStr × List PyStr))
    (m : List (PyStr × Int)) (x : PyStr) :
    (¬(∃ pr ∈ nm, (alGet cm pr.1).isSome = true ∧ x ∈ pr.2) →
        alGet (nm.foldl
          (fun acc pr =>
            match alGet cm pr.1 with
            | some count => pr.2.foldl (fun a name => addName a name count) acc
            | none => acc) m) x = alGet m x) ∧
      ((∃ pr ∈ nm, (alGet cm pr.1).isSome = true ∧ x ∈ pr.2) →
        alGet (nm.foldl
          (fun acc pr =>
            match alGet cm pr.1 with
            | some count => pr.2.foldl (fun a name => addName a name count) acc
            | none => acc) m) x =
          some ((alGet m x).getD 0 + specTotal nm cm x)) := by
  induction nm generalizing m with
  | nil =>
    constructor
    · intro _
      simp
    · rintro ⟨q, hq, _⟩
      simp at hq
  | cons pr tl ih =>
    constructor
    · intro hno
      have hnotl : ¬∃ q ∈ tl, (alGet cm q.1).isSome = true ∧ x ∈ q.2 := by
        rintro ⟨q, hq, h⟩
        exact hno ⟨q, List.mem_cons_of_mem pr hq, h⟩
      simp only [List.foldl_cons]
      cases hcm : alGet cm pr.1 with
      | none =>
        simp only [hcm]
        exact (ih m).1 hnotl
      | some c =>
        have hx : x ∉ pr.2 := fun hx =>
          hno ⟨pr, List.mem_cons_self pr tl, by simp [hcm], hx⟩
        simp only [hcm]
        rw [(ih _).1 hnotl, alGet_foldNames, if_neg hx]
    · intro hex
      simp only [List.foldl_cons]
      cases hcm : alGet cm pr.1 with
      | none =>
        have hextl : ∃ q ∈ tl, (alGet cm q.1).isSome = true ∧ x ∈ q.2 := by
          obtain ⟨q, hq, h1, h2⟩ := hex
          rcases List.mem_cons.mp hq with rfl | hq2
          · rw [hcm] at h1
            cases h1
          · exact ⟨q, hq2, h1, h2⟩
        simp only [hcm]
        rw [(ih m).2 hextl, specTotal_cons]
        simp [hcm]
      | some c =>
        have hsT : specTotal (pr :: tl) cm x =
            c * (countOcc x pr.2 : Int) + specTotal tl cm x := by
          rw [specTotal_cons, hcm]
        simp only [hcm]
        by_cases hx : x ∈ pr.2
        · by_cases hextl : ∃ q ∈ tl, (alGet cm q.1).isSome = true ∧ x ∈ q.2
          · rw [(ih _).2 hextl, alGet_foldNames, if_pos hx, hsT]
            simp only [Option.getD_some]
            congr 1
            ring
          · rw [(ih _).1 hextl, alGet_foldNames, if_pos hx, hsT,
              specTotal_eq_zero tl cm x hextl]
            congr 1
            ring
        · have hextl : ∃ q ∈ tl, (alGet cm q.1).isSome = true ∧ x ∈ q.2 := by
            obtain ⟨q, hq, h1, h2⟩ := hex
            rcases List.mem_cons.mp hq with rfl | hq2
            · exact absurd h2 hx
            · exact ⟨q, hq2, h1, h2⟩
          rw [(ih _).2 hextl, alGet_foldNames, if_neg hx, hsT,
            countOcc_eq_zero x pr.2 hx]
          congr 1
          push_cast
          ring

/-- C1: characterization of the Aggregator's join.  A name `x` appears in
the report exactly when some entry of the names map has a PMID that also
has a citation count and lists `x`; in that case its total is the sum,
over every such entry, of that PMID's count times the number of
occurrences of `x` in the entry's name list — so each PMID present in
both maps adds its count once per listed occurrence, starting from zero,
and PMIDs present in only one map contribute nothing. -/
theorem c1_aggregate_join_totals (nm : List (PyStr × List PyStr))
    (cm : List (PyStr × Int)) (x : PyStr) :
    (alGet (aggregate nm cm) x = none ↔
        ¬∃ pr ∈ nm, (alGet cm pr.1).isSome = true ∧ x ∈ pr.2) ∧
      ((∃ pr ∈ nm, (alGet cm pr.1).isSome = true ∧ x ∈ pr.2) →
        alGet (aggregate nm cm) x = some (specTotal nm cm x)) := by
  have hgen := alGet_aggregate_general cm nm [] x
  have hagg : aggregate nm cm = nm.foldl
      (fun acc pr =>
        match alGet cm pr.1 with
        | some count => pr.2.foldl (fun a name => addName a name count) acc
        | none => acc) [] := rfl
  constructor
  · constructor
    · intro hnone hex
      have hsome := hgen.2 hex
      rw [← hagg, hnone] at hsome
      cases hsome
    · intro hnex
      rw [hagg, hgen.1 hnex]
      rfl
  · intro hex
    rw [hagg, hgen.2 hex]
    simp [alGet]

/-- C1 witness: the claim's concrete example — names map
`{pmid1: [GeneX, GeneY], pmid2: [GeneX]}` with counts
`{pmid1: 10, pmid2: 5}` yields exactly `{GeneX: 15, GeneY: 10}`, with the
existence hypothesis discharged for both names. -/
theorem c1_aggregate_join_totals_witness :
    aggregate [("pmid1".toList, ["GeneX".toList, "GeneY".toList]), ("pmid2".toList, ["GeneX".toList])]
        [("pmid1".toList, 10), ("pmid2".toList, 5)] =
      [("GeneX".toList, 15), ("GeneY".toList, 10)] ∧
      alGet (aggregate [("pmid1".toList, ["GeneX".toList, "GeneY".toList]), ("pmid2".toList, ["GeneX".toList])]
        [("pmid1".toList, 10), ("pmid2".toList, 5)]) ("GeneX".toList) = some 15 ∧
      alGet (aggregate [("pmid1".toList, ["GeneX".toList, "GeneY".toList]), ("pmid2".toList, ["GeneX".toList])]
        [("pmid1".toList, 10), ("pmid2".toList, 5)]) ("GeneY".toList) = some 10 := by
  refine ⟨by decide, ?_, ?_⟩
  · have h := (c1_aggregate_join_totals
      [("pmid1".toList, ["GeneX".toList, "GeneY".toList]), ("pmid2".toList, ["GeneX".toList])]
      [("pmid1".toList, 10), ("pmid2".toList, 5)] ("GeneX".toList)).2
      ⟨("pmid1".toList, ["GeneX".toList, "GeneY".toList]), by decide, by decide, by decide⟩
    rw [h]
    decide
  · have h := (c1_aggregate_join_totals
      [("pmid1".toList, ["GeneX".toList, "GeneY".toList]), ("pmid2".toList, ["GeneX".toList])]
      [("pmid1".toList, 10), ("pmid2".toList, 5)] ("GeneY".toList)).2
      ⟨("pmid1".toList, ["GeneX".toList, "GeneY".toList]), by decide, by decide, by decide⟩
    rw [h]
    decide

/-! ## C9: report keys are unique, in first-seen insertion order -/

theorem keys_map_bump (m : List (PyStr × Int)) (n : PyStr) (c : Int) :
    ((m.map fun p => if p.1 = n then (p.1, p.2 + c) else p).map Prod.fst) =
      m.map Prod.fst := by
  induction m with
  | nil => rfl
  | cons kv tl ih =>
    simp only [List.map_cons, ih, List.cons.injEq, and_true]
    split <;> rfl

theorem keys_addName (m : List (PyStr × Int)) (n : PyStr) (c : Int) :
    (addName m n c).map Prod.fst = insertFirstSeen (m.map Prod.fst) n := by
  unfold addName insertFirstSeen
  cases hget : alGet m n with
  | some v =>
    have hmem : n ∈ m.map Prod.fst := (alGet_isSome_iff m n).mp (by simp [hget])
    simp only [hget, Option.isSome_some, if_pos, if_true, keys_map_bump, hmem]
  | none =>
    have hmem : n ∉ m.map Prod.fst := by
      rw [← alGet_isSome_iff]
      simp [hget]
    simp only [hget, Option.isSome_none, Bool.false_eq_true, if_false, hmem, keys_map_bump,
      List.map_append]
    rfl

theorem keys_foldNames (ns : List PyStr) (c : Int) (m : List (PyStr × Int)) :
    ((ns.foldl (fun a name => addName a name c) m).map Prod.fst) =
      ns.foldl insertFirstSeen (m.map Prod.fst) := by
  induction ns generalizing m with
  | nil => rfl
  | cons n tl ih =>
    simp only [List.foldl_cons]
    rw [ih, keys_addName]

theorem keys_aggregate_general (cm : List (PyStr × Int)) (nm : List (PyStr × List PyStr))
    (m : List (PyStr × Int)) :
    ((nm.foldl
        (fun acc pr =>
          match alGet cm pr.1 with
          | some count => pr.2.foldl (fun a name => addName a name count) acc
          | none => acc) m).map Prod.fst) =
      (((nm.filter fun pr => (alGet cm pr.1).isSome).map Prod.snd).flatten).foldl
        insertFirstSeen (m.map Prod.fst) := by
  induction nm generalizing m with
  | nil => rfl
  | cons pr tl ih =>
    simp only [List.foldl_cons]
    cases hcm : alGet cm pr.1 with
    | none =>
      rw [List.filter_cons_of_neg (by simp [hcm])]
      simp only [hcm]
      exact ih m
    | some c =>
      rw [List.filter_cons_of_pos (by simp [hcm])]
      simp only [hcm, List.map_cons, List.flatten_cons]
      rw [List.foldl_append, ih, keys_foldNames]

theorem insertFirstSeen_nodup (acc : List PyStr) (n : PyStr) (h : acc.Nodup) :
    (insertFirstSeen acc n).Nodup := by
  unfold insertFirstSeen
  by_cases hmem : n ∈ acc
  · simpa [hmem] using h
  · simp [hmem, List.nodup_append, h]

theorem foldl_insertFirstSeen_nodup (l : List PyStr) :
    ∀ acc : List PyStr, acc.Nodup → (l.foldl insertFirstSeen acc).Nodup := by
  induction l with
  | nil => intro acc h; exact h
  | cons n tl ih =>
    intro acc h
    exact ih (insertFirstSeen acc n) (insertFirstSeen_nodup acc n h)

/-- C9: for every pair of parsed maps, the aggregated report's keys are
unique, and they appear in the first-occurrence order of the name
traversal (names of PMIDs with a citation count, in names-map insertion
order) — not sorted by citation magnitude. -/
theorem c9_report_keys_unique_insertion_order (nm : List (PyStr × List PyStr))
    (cm : List (PyStr × Int)) :
    ((aggregate nm cm).map Prod.fst).Nodup ∧
      (aggregate nm cm).map Prod.fst =
        firstSeenOrder (((nm.filter fun pr => (alGet cm pr.1).isSome).map Prod.snd).flatten) := by
  have hagg : aggregate nm cm = nm.foldl
      (fun acc pr =>
        match alGet cm pr.1 with
        | some count => pr.2.foldl (fun a name => addName a name count) acc
        | none => acc) [] := rfl
  have horder := keys_aggregate_general cm nm []
  rw [hagg]
  refine ⟨?_, horder⟩
  rw [horder]
  exact foldl_insertFirstSeen_nodup _ [] List.nodup_nil

/-! ## C6: malformed artifact lines are skipped, the rest still parse -/

theorem parseNamesFile_eq (lines : List PyStr) :
    parseNamesFile lines = lines.foldl (lineFoldStep parseNamesLine) ([], []) := by
  unfold parseNamesFile
  congr 1
  funext st line
  unfold lineFoldStep
  cases hp : parseNamesLine line <;> simp [hp]

theorem parseCountsFile_eq (lines : List PyStr) :
    parseCountsFile lines = lines.foldl (lineFoldStep parseCountLine) ([], []) := by
  unfold parseCountsFile
  congr 1
  funext st line
  unfold lineFoldStep
  cases hp : parseCountLine line <;> simp [hp]

theorem lineFold_fst (p : PyStr → Option (PyStr × β)) (lines : List PyStr)
    (m : List (PyStr × β)) (w : List PyStr) :
    (lines.foldl (lineFoldStep p) (m, w)).1 = lines.foldl (lineMapStep p) m := by
  induction lines generalizing m w with
  | nil => rfl
  | cons line tl ih =>
    simp only [List.foldl_cons]
    cases hp : p line with
    | some pr => simp only [lineFoldStep, lineMapStep, hp]; exact ih _ _
    | none => simp only [lineFoldStep, lineMapStep, hp]; exact ih _ _

theorem lineFold_snd (p : PyStr → Option (PyStr × β)) (lines : List PyStr)
    (m : List (PyStr × β)) (w : List PyStr) :
    (lines.foldl (lineFoldStep p) (m, w)).2 =
      w ++ lines.filter fun line => (p line).isNone := by
  induction lines generalizing m w with
  | nil => simp
  | cons line tl ih =>
    simp only [List.foldl_cons]
    cases hp : p line with
    | some pr =>
      simp only [lineFoldStep, hp]
      rw [ih, List.filter_cons_of_neg (by simp [hp])]
    | none =>
      simp only [lineFoldStep, hp]
      rw [ih, List.filter_cons_of_pos (by simp [hp])]
      simp

theorem lineFold_skip (p : PyStr → Option (PyStr × β)) (pre post : List PyStr)
    (bad : PyStr) (hbad : p bad = none) (m : List (PyStr × β)) :
    (pre ++ bad :: post).foldl (lineMapStep p) m =
      (pre ++ post).foldl (lineMapStep p) m := by
  rw [List.foldl_append, List.foldl_append, List.foldl_cons]
  have hstep : lineMapStep p (pre.foldl (lineMapStep p) m) bad =
      pre.foldl (lineMapStep p) m := by
    unfold lineMapStep
    rw [hbad]
  rw [hstep]

/-- C6: a line that fails the `key: value` parse (such as `"pmid3 GeneZ"`,
which lacks the `": "` separator) is skipped — it lands in the warning log
and the parsed map is exactly the map of the file without it, so every
well-formed line before or after it still contributes normally; the same
holds in the citation-counts file.  The run never aborts: both parsers
are total functions. -/
theorem c6_malformed_line_skipped (pre post : List PyStr) (badn : PyStr)
    (hn : parseNamesLine badn = none) (pre2 post2 : List PyStr) (badc : PyStr)
    (hc : parseCountLine badc = none) :
    (parseNamesFile (pre ++ badn :: post)).1 = (parseNamesFile (pre ++ post)).1 ∧
      badn ∈ (parseNamesFile (pre ++ badn :: post)).2 ∧
      (parseCountsFile (pre2 ++ badc :: post2)).1 = (parseCountsFile (pre2 ++ post2)).1 ∧
      badc ∈ (parseCountsFile (pre2 ++ badc :: post2)).2 := by
  refine ⟨?_, ?_, ?_, ?_⟩
  · rw [parseNamesFile_eq, parseNamesFile_eq, lineFold_fst, lineFold_fst,
      lineFold_skip parseNamesLine pre post badn hn]
  · rw [parseNamesFile_eq, lineFold_snd]
    simp only [List.nil_append, List.mem_filter]
    exact ⟨List.mem_append_right pre (List.mem_cons_self badn post), by simp [hn]⟩
  · rw [parseCountsFile_eq, parseCountsFile_eq, lineFold_fst, lineFold_fst,
      lineFold_skip parseCountLine pre2 post2 badc hc]
  · rw [parseCountsFile_eq, lineFold_snd]
    simp only [List.nil_append, List.mem_filter]
    exact ⟨List.mem_append_right pre2 (List.mem_cons_self badc post2), by simp [hc]⟩

/-- C6 witness: the claim's concrete malformed line `"pmid3 GeneZ\n"`
between two well-formed lines of the names artifact (and a malformed
counts line `"pmid4 7\n"`), with both parse-failure hypotheses discharged
by evaluation; the surrounding well-formed lines still parse. -/
theorem c6_malformed_line_skipped_witness :
    (parseNamesFile
        ["pmid1: GeneX\n".toList, "pmid3 GeneZ\n".toList, "pmid2: GeneY\n".toList]).1 =
      (parseNamesFile ["pmid1: GeneX\n".toList, "pmid2: GeneY\n".toList]).1 ∧
      "pmid3 GeneZ\n".toList ∈
        (parseNamesFile
          ["pmid1: GeneX\n".toList, "pmid3 GeneZ\n".toList, "pmid2: GeneY\n".toList]).2 ∧
      (parseNamesFile ["pmid1: GeneX\n".toList, "pmid2: GeneY\n".toList]).1 =
        [("pmid1".toList, ["GeneX".toList]), ("pmid2".toList, ["GeneY".toList])] := by
  have h := c6_malformed_line_skipped ["pmid1: GeneX\n".toList] ["pmid2: GeneY\n".toList]
    ("pmid3 GeneZ\n".toList) (by decide) [] [] ("pmid4 7\n".toList) (by decide)
  exact ⟨h.1, h.2.1, by decide⟩

/-! ## C10: a falsy annotation payload is omitted like a failed fetch -/

theorem keys_map_keep [DecidableEq α] (m : List (α × β)) (k : α) (v : β) :
    ((m.map fun p => if p.1 = k then (k, v) else p).map Prod.fst) = m.map Prod.fst := by
  induction m with
  | nil => rfl
  | cons kv tl ih =>
    simp only [List.map_cons, ih, List.cons.injEq, and_true]
    split
    · rename_i hh; exact hh.symm
    · rfl

theorem keys_alSet_mem [DecidableEq α] (m : List (α × β)) (k : α) (v : β) (q : α) :
    q ∈ (alSet m k v).map Prod.fst ↔ q ∈ m.map Prod.fst ∨ q = k := by
  unfold alSet
  cases hget : alGet m k with
  | some w =>
    have hmem : k ∈ m.map Prod.fst := (alGet_isSome_iff m k).mp (by simp [hget])
    simp only [hget, Option.isSome_some, if_true, keys_map_keep]
    constructor
    · exact Or.inl
    · rintro (h | rfl)
      · exact h
      · exact hmem
  | none =>
    simp only [hget, Option.isSome_none, Bool.false_eq_true, if_false, List.map_append,
      List.mem_append, List.map_cons, List.map_nil, List.mem_singleton]

theorem buildResults_mem_general (pairs : List (PyStr × Option Json))
    (init : List (PyStr × Option (List Json))) (q : PyStr) :
    q ∈ ((pairs.foldl
        (fun results pr =>
          match pr.2 with
          | some annotations =>
            if pyTruthy annotations then alSet results pr.1 (extract_names annotations)
            else results
          | none => results) init).map Prod.fst) ↔
      q ∈ init.map Prod.fst ∨ ∃ j, (q, some j) ∈ pairs ∧ pyTruthy j = true := by
  induction pairs generalizing init with
  | nil => simp
  | cons pr tl ih =>
    obtain ⟨p, oj⟩ := pr
    simp only [List.foldl_cons]
    cases oj with
    | none =>
      rw [ih]
      simp only [List.mem_cons]
      constructor
      · rintro (h | ⟨j, hj, ht⟩)
        · exact Or.inl h
        · exact Or.inr ⟨j, Or.inr hj, ht⟩
      · rintro (h | ⟨j, hj | hj, ht⟩)
        · exact Or.inl h
        · cases hj
        · exact Or.inr ⟨j, hj, ht⟩
    | some j0 =>
      by_cases ht0 : pyTruthy j0 = true
      · simp only [ht0, if_true]
        rw [ih]
        simp only [keys_alSet_mem, List.mem_cons]
        constructor
        · rintro ((h | rfl) | ⟨j, hj, ht⟩)
          · exact Or.inl h
          · exact Or.inr ⟨j0, Or.inl rfl, ht0⟩
          · exact Or.inr ⟨j, Or.inr hj, ht⟩
        · rintro (h | ⟨j, hj | hj, ht⟩)
          · exact Or.inl (Or.inl h)
          · cases hj
            exact Or.inl (Or.inr rfl)
          · exact Or.inr ⟨j, hj, ht⟩
      · have hf : pyTruthy j0 = false := by simpa using ht0
        simp only [hf, Bool.false_eq_true, if_false]
        rw [ih]
        simp only [List.mem_cons]
        constructor
        · rintro (h | ⟨j, hj, ht⟩)
          · exact Or.inl h
          · exact Or.inr ⟨j, Or.inr hj, ht⟩
        · rintro (h | ⟨j, hj | hj, ht⟩)
          · exact Or.inl h
          · cases hj
            exact absurd ht ht0
          · exact Or.inr ⟨j, hj, ht⟩

/-- C10: a PMID whose annotation request succeeded but returned a falsy
payload is treated exactly like a failed (non-200, `None`) fetch: the
`if annotations:` gate in `main` skips it, so the results dict (and hence
the persisted `pmids_with_names.txt`, which gets one line per entry)
contains an entry for a PMID exactly when some fetched payload for it was
truthy, and replacing a falsy successful payload by `None` leaves the
whole results mapping unchanged. -/
theorem c10_falsy_payload_omitted (pairs : List (PyStr × Option Json)) (q : PyStr)
    (pre post : List (PyStr × Option Json)) (p : PyStr) (j : Json)
    (hj : pyTruthy j = false) :
    (q ∈ (buildResults pairs).map Prod.fst ↔
        ∃ jj, (q, some jj) ∈ pairs ∧ pyTruthy jj = true) ∧
      buildResults (pre ++ (p, some j) :: post) = buildResults (pre ++ (p, none) :: post) := by
  constructor
  · have h := buildResults_mem_general pairs [] q
    simpa [buildResults] using h
  · unfold buildResults
    rw [List.foldl_append, List.foldl_append]
    simp only [List.foldl_cons, hj]
    rfl

/-- C10 witness: a concrete run where the fetch for `pmid1` succeeded with
the empty (falsy) payload `[]`, the fetch for `pmid2` failed (`None`), and
the one for `pmid3` succeeded non-empty: only `pmid3` gets an entry, and
swapping the empty payload of `pmid1` for a failed fetch leaves the
results identical; the falsiness hypothesis is discharged by evaluation. -/
theorem c10_falsy_payload_omitted_witness :
    (("pmid1".toList ∉ (buildResults
        [("pmid1".toList, some (Json.arr [])), ("pmid2".toList, none),
          ("pmid3".toList, some (Json.arr [Json.obj []]))]).map Prod.fst) ∧
      ("pmid3".toList ∈ (buildResults
        [("pmid1".toList, some (Json.arr [])), ("pmid2".toList, none),
          ("pmid3".toList, some (Json.arr [Json.obj []]))]).map Prod.fst)) ∧
      buildResults [("pmid1".toList, some (Json.arr [])), ("pmid2".toList, none)] =
        buildResults [("pmid1".toList, none), ("pmid2".toList, none)] := by
  have hmain := c10_falsy_payload_omitted
    [("pmid1".toList, some (Json.arr [])), ("pmid2".toList, none),
      ("pmid3".toList, some (Json.arr [Json.obj []]))] ("pmid1".toList)
    [] [("pmid2".toList, none)] ("pmid1".toList) (Json.arr []) rfl
  have hmain3 := c10_falsy_payload_omitted
    [("pmid1".toList, some (Json.arr [])), ("pmid2".toList, none),
      ("pmid3".toList, some (Json.arr [Json.obj []]))] ("pmid3".toList)
    [] [("pmid2".toList, none)] ("pmid1".toList) (Json.arr []) rfl
  refine ⟨⟨?_, ?_⟩, hmain.2⟩
  · intro hmem
    obtain ⟨jj, hjj, htr⟩ := hmain.1.mp hmem
    simp only [List.mem_cons, Prod.mk.injEq] at hjj
    rcases hjj with ⟨heq1, heq2⟩ | ⟨heq1, heq2⟩ | hrest
    · cases heq2
      simp [pyTruthy] at htr
    · cases heq2
    · simp only [List.mem_singleton, Prod.mk.injEq, List.not_mem_nil] at hrest
      rcases hrest with ⟨heq1, _⟩ | hfalse
      · revert heq1
        decide
      · exact hfalse
  · exact hmain3.1.mpr ⟨Json.arr [Json.obj []], by simp, rfl⟩

/-! ## C4: read_pmids keeps empty lines (corrected) -/

/-- C4 counterexample: on the file content `"a\n\nb\n"`, `read_pmids`
returns `["a", "", "b"]` — the empty line's residue `""` is included,
contradicting the claim that empty or whitespace-only lines are not
included (which would give `["a", "b"]`). -/
theorem c4_read_pmids_counterexample :
    read_pmids [("pmids.txt".toList, "a\n\nb\n".toList)] ("pmids.txt".toList) =
        .ok ["a".toList, [], "b".toList] ∧
      ["a".toList, ([] : PyStr), "b".toList] ≠ ["a".toList, "b".toList] :=
  ⟨rfl, by decide⟩

/-- C4 amended: `read_pmids` returns the ordered sequence of ALL the
file's trimmed lines — an empty or whitespace-only line contributes an
empty-string PMID rather than being dropped — performing no PMID format
validation, and fails with a file-not-found condition when the path does
not exist.  (Order preservation and the per-line trim are stated
positionally.) -/
theorem c4_read_pmids_amended (fs : FileSys) (file_path : PyStr) :
    (alGet fs file_path = none → read_pmids fs file_path = .error .notFound) ∧
      (∀ content, alGet fs file_path = some content →
        ∃ res, read_pmids fs file_path = .ok res ∧
          res.length = (pyReadLines content).length ∧
          ∀ i (h : i < res.length) (h2 : i < (pyReadLines content).length),
            res.get ⟨i, h⟩ = pyStrip ((pyReadLines content).get ⟨i, h2⟩)) := by
  constructor
  · intro hnone
    unfold read_pmids
    rw [hnone]
  · intro content hsome
    refine ⟨(pyReadLines content).map pyStrip, ?_, by simp, ?_⟩
    · unfold read_pmids
      rw [hsome]
    · intro i h h2
      simp

/-- C4 witness: both hypotheses of the amended theorem discharged on a
concrete file system — a missing path errors, and the present file
`"a\n\nb\n"` yields three trimmed lines (the middle one empty). -/
theorem c4_read_pmids_amended_witness :
    read_pmids [("pmids.txt".toList, "a\n\nb\n".toList)] ("missing.txt".toList) =
        .error .notFound ∧
      read_pmids [("pmids.txt".toList, "a\n\nb\n".toList)] ("pmids.txt".toList) =
        .ok ["a".toList, [], "b".toList] := by
  constructor
  · exact (c4_read_pmids_amended [("pmids.txt".toList, "a\n\nb\n".toList)]
      ("missing.txt".toList)).1 (by decide)
  · obtain ⟨res, hres, hlen, hidx⟩ :=
      (c4_read_pmids_amended [("pmids.txt".toList, "a\n\nb\n".toList)]
        ("pmids.txt".toList)).2 ("a\n\nb\n".toList) (by decide)
    rw [hres]
    have : res = ["a".toList, [], "b".toList] := by
      have h0 := hidx 0 (by rw [hlen]; decide) (by decide)
      have h1 := hidx 1 (by rw [hlen]; decide) (by decide)
      have h2 := hidx 2 (by rw [hlen]; decide) (by decide)
      have hl : res.length = 3 := by rw [hlen]; decide
      match res, hl with
      | [x0, x1, x2], _ =>
        simp only [List.get] at h0 h1 h2
        rw [h0, h1, h2]
        decide
    rw [this]

/-! ## C3: write/parse round trip — strip lemmas -/

theorem head_false_of_dropWhile_eq {p : Char → Bool} {c : Char} {l : List Char}
    (h : (c :: l).dropWhile p = c :: l) : p c = false := by
  by_cases hc : p c = true
  · rw [List.dropWhile_cons, if_pos hc] at h
    have := (@List.dropWhile_suffix _ l p).length_le
    rw [h] at this
    simp at this
  · simpa using hc

theorem dropWhile_append_of_head {p : Char → Bool} {l r : List Char}
    (h : l.dropWhile p = l) (hne : l ≠ []) : (l ++ r).dropWhile p = l ++ r := by
  cases l with
  | nil => exact absurd rfl hne
  | cons c t =>
    have hc : p c = false := head_false_of_dropWhile_eq h
    rw [List.cons_append, List.dropWhile_cons, if_neg (by simp [hc])]

theorem dropWhile_eq_self_of_noSpace {p : Char → Bool} {l : List Char}
    (h : ∀ c ∈ l, p c = false) : l.dropWhile p = l := by
  cases l with
  | nil => rfl
  | cons c t =>
    rw [List.dropWhile_cons, if_neg (by simp [h c (List.mem_cons_self c t)])]

theorem strip_parts (l : PyStr) (h : pyStrip l = l) :
    l.dropWhile pyIsSpace = l ∧ l.reverse.dropWhile pyIsSpace = l.reverse := by
  have h1 : l.dropWhile pyIsSpace <:+ l := List.dropWhile_suffix pyIsSpace
  have hlen := congrArg List.length h
  unfold pyStrip at hlen
  simp only [List.length_reverse] at hlen
  have hle1 := (@List.dropWhile_suffix _ ((l.dropWhile pyIsSpace).reverse) pyIsSpace).length_le
  simp only [List.length_reverse] at hle1
  have hle2 := (@List.dropWhile_suffix _ l pyIsSpace).length_le
  have hlenF : (l.dropWhile pyIsSpace).length = l.length := by omega
  obtain ⟨t, ht⟩ := h1
  have htl : t = [] := by
    have := congrArg List.length ht
    simp only [List.length_append] at this
    have hlt : t.length = 0 := by omega
    exact List.eq_nil_of_length_eq_zero hlt
  subst htl
  simp only [List.nil_append] at ht
  refine ⟨ht, ?_⟩
  unfold pyStrip at h
  rw [ht] at h
  have := congrArg List.reverse h
  rwa [List.reverse_reverse] at this

theorem pyStrip_eq_self_of_noSpace (l : PyStr) (h : ∀ c ∈ l, pyIsSpace c = false) :
    pyStrip l = l := by
  unfold pyStrip
  rw [dropWhile_eq_self_of_noSpace h,
    dropWhile_eq_self_of_noSpace (fun c hc => h c (List.mem_reverse.mp hc)),
    List.reverse_reverse]

theorem pyStrip_cons_space (c : Char) (l : PyStr) (hc : pyIsSpace c = true) :
    pyStrip (c :: l) = pyStrip l := by
  unfold pyStrip
  rw [List.dropWhile_cons, if_pos (by simp [hc])]

theorem pyStrip_wrap (k j : PyStr) (hk : pyStrip k = k) (hjne : j ≠ [])
    (hjt : j.reverse.dropWhile pyIsSpace = j.reverse) :
    pyStrip (k ++ ':' :: ' ' :: (j ++ ['\n'])) = k ++ ':' :: ' ' :: j := by
  unfold pyStrip
  have hstep1 : (k ++ ':' :: ' ' :: (j ++ ['\n'])).dropWhile pyIsSpace =
      k ++ ':' :: ' ' :: (j ++ ['\n']) := by
    cases k with
    | nil =>
      simp only [List.nil_append]
      rw [List.dropWhile_cons, if_neg (by decide)]
    | cons c t =>
      have hc : pyIsSpace c = false :=
        head_false_of_dropWhile_eq (strip_parts (c :: t) hk).1
      rw [List.cons_append, List.dropWhile_cons, if_neg (by simp [hc])]
  rw [hstep1]
  have hrev : (k ++ ':' :: ' ' :: (j ++ ['\n'])).reverse =
      '\n' :: (j.reverse ++ ' ' :: ':' :: k.reverse) := by
    simp
  rw [hrev, List.dropWhile_cons, if_pos (by decide)]
  have hndrop : (j.reverse ++ ' ' :: ':' :: k.reverse).dropWhile pyIsSpace =
      j.reverse ++ ' ' :: ':' :: k.reverse :=
    dropWhile_append_of_head hjt (by simpa using hjne)
  rw [hndrop]
  simp

/-! ## C3: split lemmas -/

theorem pySplitCS_no_sep (l : PyStr) (h : hasCS l = false) : pySplitCS l = [l] := by
  induction l using pySplitCS.induct with
  | case1 => rfl
  | case2 rest ih => simp [hasCS] at h
  | case3 c rest h1 ih =>
    rw [pySplitCS_cons_ne c rest h1]
    rw [hasCS_cons_ne c rest h1] at h
    rw [ih h]
    rfl

theorem pySplitCS_append_sep (k j : PyStr) (hk : hasCS k = false) :
    pySplitCS (k ++ ':' :: ' ' :: j) = k :: pySplitCS j := by
  induction k using pySplitCS.induct with
  | case1 => rfl
  | case2 rest ih => simp [hasCS] at hk
  | case3 c rest h1 ih =>
    rw [hasCS_cons_ne c rest h1] at hk
    have h2 : ∀ rest2 : PyStr, c = ':' → rest ++ ':' :: ' ' :: j = ' ' :: rest2 → False := by
      intro rest2 hc hr
      cases rest with
      | nil =>
        simp only [List.nil_append, List.cons.injEq] at hr
        exact absurd hr.1.symm (by decide)
      | cons r rest3 =>
        simp only [List.cons_append, List.cons.injEq] at hr
        exact h1 rest3 hc (by rw [hr.1])
    rw [List.cons_append, pySplitCS_cons_ne c (rest ++ ':' :: ' ' :: j) h2, ih hk]
    rfl

theorem hasCS_append (a b : PyStr) (ha : hasCS a = false) (hb : hasCS b = false)
    (hbh : ∀ t : PyStr, b ≠ ' ' :: t) : hasCS (a ++ b) = false := by
  induction a using hasCS.induct with
  | case1 => simpa using hb
  | case2 rest => simp [hasCS] at ha
  | case3 c rest h1 ih =>
    rw [hasCS_cons_ne c rest h1] at ha
    have h2 : ∀ rest2 : PyStr, c = ':' → rest ++ b = ' ' :: rest2 → False := by
      intro rest2 hc hr
      cases rest with
      | nil =>
        simp only [List.nil_append] at hr
        exact hbh rest2 hr
      | cons r rest3 =>
        simp only [List.cons_append, List.cons.injEq] at hr
        exact h1 rest3 hc (by rw [hr.1])
    rw [List.cons_append, hasCS_cons_ne c (rest ++ b) h2]
    exact ih ha

theorem hasCS_of_no_colon (l : PyStr) (h : ':' ∉ l) : hasCS l = false := by
  induction l using hasCS.induct with
  | case1 => rfl
  | case2 rest => simp at h
  | case3 c rest h1 ih =>
    simp only [List.mem_cons, not_or] at h
    rw [hasCS_cons_ne c rest h1]
    exact ih h.2

/-! ## C3: comma split and join lemmas -/

theorem pySplitComma_ne_nil (l : PyStr) : pySplitComma l ≠ [] := by
  induction l using pySplitComma.induct with
  | case1 => simp [pySplitComma]
  | case2 rest ih => simp [pySplitComma]
  | case3 c rest h1 ih =>
    rw [pySplitComma_cons_ne c rest h1]
    cases hs : pySplitComma rest with
    | nil => exact absurd hs ih
    | cons s ss => simp [consHead]

theorem pySplitComma_no (n : PyStr) (h : ',' ∉ n) : pySplitComma n = [n] := by
  induction n using pySplitComma.induct with
  | case1 => rfl
  | case2 rest ih => simp at h
  | case3 c rest h1 ih =>
    simp only [List.mem_cons, not_or] at h
    rw [pySplitComma_cons_ne c rest h1, ih h.2]
    rfl

theorem pySplitComma_append (n rest : PyStr) (h : ',' ∉ n) :
    pySplitComma (n ++ ',' :: rest) = n :: pySplitComma rest := by
  induction n using pySplitComma.induct with
  | case1 => rfl
  | case2 rest2 ih => simp at h
  | case3 c n2 h1 ih =>
    simp only [List.mem_cons, not_or] at h
    rw [List.cons_append,
      pySplitComma_cons_ne c (n2 ++ ',' :: rest) (fun hh => h.1 hh.symm), ih h.2]
    rfl

theorem pyJoin_parts (ns : List PyStr) (hne : ns ≠ [])
    (h : ∀ n ∈ ns, pyStrip n = n ∧ n ≠ []) :
    pyJoin (',' :: ' ' :: []) ns ≠ [] ∧
      (pyJoin (',' :: ' ' :: []) ns).reverse.dropWhile pyIsSpace =
        (pyJoin (',' :: ' ' :: []) ns).reverse := by
  induction ns with
  | nil => exact absurd rfl hne
  | cons n tl ih =>
    cases tl with
    | nil =>
      have hn := h n (List.mem_cons_self n [])
      exact ⟨by simpa [pyJoin] using hn.2, by simpa [pyJoin] using (strip_parts n hn.1).2⟩
    | cons m tl2 =>
      have hn := h n (List.mem_cons_self n (m :: tl2))
      have ihh := ih (by simp)
        (fun q hq => h q (List.mem_cons_of_mem n hq))
      have hshape : pyJoin (',' :: ' ' :: []) (n :: m :: tl2) =
          n ++ ',' :: ' ' :: pyJoin (',' :: ' ' :: []) (m :: tl2) := by
        show n ++ (',' :: ' ' :: []) ++ pyJoin (',' :: ' ' :: []) (m :: tl2) = _
        simp
      rw [hshape]
      constructor
      · cases n with
        | nil => exact absurd rfl hn.2
        | cons c t => simp
      · have hrev : (n ++ ',' :: ' ' :: pyJoin (',' :: ' ' :: []) (m :: tl2)).reverse =
            (pyJoin (',' :: ' ' :: []) (m :: tl2)).reverse ++ ' ' :: ',' :: n.reverse := by
          simp
        rw [hrev]
        exact dropWhile_append_of_head ihh.2 (by simpa using ihh.1)

theorem hasCS_pyJoin (ns : List PyStr) (h : ∀ n ∈ ns, hasCS n = false) :
    hasCS (pyJoin (',' :: ' ' :: []) ns) = false := by
  induction ns with
  | nil => rfl
  | cons n tl ih =>
    cases tl with
    | nil => simpa [pyJoin] using h n (List.mem_cons_self n [])
    | cons m tl2 =>
      have hshape : pyJoin (',' :: ' ' :: []) (n :: m :: tl2) =
          n ++ ',' :: ' ' :: pyJoin (',' :: ' ' :: []) (m :: tl2) := by
        show n ++ (',' :: ' ' :: []) ++ pyJoin (',' :: ' ' :: []) (m :: tl2) = _
        simp
      rw [hshape]
      apply hasCS_append
      · exact h n (List.mem_cons_self n (m :: tl2))
      · show hasCS (',' :: ' ' :: pyJoin (',' :: ' ' :: []) (m :: tl2)) = false
        rw [hasCS_cons_ne ',' _ (by intro t hc; cases hc)]
        rw [hasCS_cons_ne ' ' _ (by intro t hc; cases hc)]
        exact ih (fun q hq => h q (List.mem_cons_of_mem n hq))
      · intro t hc
        cases hc

theorem splitComma_join (ns : List PyStr) (hne : ns ≠ [])
    (h : ∀ n ∈ ns, pyStrip n = n ∧ ',' ∉ n) :
    (pySplitComma (pyJoin (',' :: ' ' :: []) ns)).map pyStrip = ns := by
  induction ns with
  | nil => exact absurd rfl hne
  | cons n tl ih =>
    cases tl with
    | nil =>
      have hn := h n (List.mem_cons_self n [])
      show (pySplitComma (pyJoin (',' :: ' ' :: []) [n])).map pyStrip = [n]
      rw [show pyJoin (',' :: ' ' :: []) [n] = n from rfl, pySplitComma_no n hn.2]
      simp [hn.1]
    | cons m tl2 =>
      have hn := h n (List.mem_cons_self n (m :: tl2))
      have hshape : pyJoin (',' :: ' ' :: []) (n :: m :: tl2) =
          n ++ ',' :: (' ' :: pyJoin (',' :: ' ' :: []) (m :: tl2)) := by
        show n ++ (',' :: ' ' :: []) ++ pyJoin (',' :: ' ' :: []) (m :: tl2) = _
        simp
      rw [hshape, pySplitComma_append n _ hn.2]
      have hsp : pySplitComma (' ' :: pyJoin (',' :: ' ' :: []) (m :: tl2)) =
          consHead ' ' (pySplitComma (pyJoin (',' :: ' ' :: []) (m :: tl2))) :=
        pySplitComma_cons_ne ' ' _ (by decide)
      have ihh := ih (by simp) (fun q hq => h q (List.mem_cons_of_mem n hq))
      cases hs : pySplitComma (pyJoin (',' :: ' ' :: []) (m :: tl2)) with
      | nil => exact absurd hs (pySplitComma_ne_nil _)
      | cons s ss =>
        rw [hs] at ihh
        rw [hsp, hs]
        simp only [consHead, List.map_cons, List.map_cons] at ihh ⊢
        rw [pyStrip_cons_space ' ' s (by decide)]
        simp only [List.cons.injEq, List.map_cons] at ihh ⊢
        exact ⟨hn.1, ihh⟩

theorem parseNamesLine_roundtrip (k : PyStr) (ns : List PyStr) (hk : WfKey k)
    (hne : ns ≠ []) (hwf : ∀ n ∈ ns, WfName n) :
    parseNamesLine (k ++ ':' :: ' ' :: (pyJoin (',' :: ' ' :: []) ns ++ ['\n'])) =
      some (k, ns) := by
  have hparts := pyJoin_parts ns hne
    (fun n hn => ⟨(hwf n hn).1, (hwf n hn).2.1⟩)
  have hstrip := pyStrip_wrap k (pyJoin (',' :: ' ' :: []) ns) hk.1 hparts.1 hparts.2
  unfold parseNamesLine
  rw [hstrip, pySplitCS_append_sep k _ hk.2.1,
    pySplitCS_no_sep _ (hasCS_pyJoin ns (fun n hn => (hwf n hn).2.2.1))]
  show some (k, (pySplitComma (pyJoin (',' :: ' ' :: []) ns)).map pyStrip) = some (k, ns)
  rw [splitComma_join ns hne (fun n hn => ⟨(hwf n hn).1, (hwf n hn).2.2.2.1⟩)]

/-! ## C3: decimal rendering and parsing lemmas -/

theorem digitChar_toNat (d : Nat) (h : d ≤ 9) : (digitChar d).toNat = 48 + d := by
  interval_cases d <;> decide

theorem chars_natDigitsGo (fuel : Nat) :
    ∀ n, n ≤ fuel → ∀ c ∈ natDigitsGo fuel n, 48 ≤ c.toNat ∧ c.toNat ≤ 57 := by
  induction fuel with
  | zero =>
    intro n hn c hc
    have hn0 : n = 0 := Nat.le_zero.mp hn
    subst hn0
    simp only [natDigitsGo, List.mem_singleton] at hc
    subst hc
    decide
  | succ fuel ih =>
    intro n hn c hc
    by_cases h10 : n < 10
    · simp only [natDigitsGo, if_pos h10, List.mem_singleton] at hc
      subst hc
      rw [digitChar_toNat n (by omega)]
      omega
    · simp only [natDigitsGo, if_neg h10, List.mem_append, List.mem_singleton] at hc
      rcases hc with hc | hc
      · exact ih (n / 10) (by omega) c hc
      · subst hc
        rw [digitChar_toNat (n % 10) (by omega)]
        omega

theorem natDigitsGo_ne_nil (fuel n : Nat) : natDigitsGo fuel n ≠ [] := by
  cases fuel with
  | zero => simp [natDigitsGo]
  | succ fuel =>
    simp only [natDigitsGo]
    split
    · simp
    · simp

theorem digitsVal_append_one (ds : List Char) (c : Char) :
    digitsVal (ds ++ [c]) = 10 * digitsVal ds + (c.toNat - 48) := by
  unfold digitsVal
  rw [List.foldl_append]
  rfl

theorem natDigitsGo_val (fuel : Nat) :
    ∀ n, n ≤ fuel → digitsVal (natDigitsGo fuel n) = n := by
  induction fuel with
  | zero =>
    intro n hn
    have hn0 : n = 0 := Nat.le_zero.mp hn
    subst hn0
    decide
  | succ fuel ih =>
    intro n hn
    by_cases h10 : n < 10
    · simp only [natDigitsGo, if_pos h10]
      show 10 * 0 + ((digitChar n).toNat - 48) = n
      rw [digitChar_toNat n (by omega)]
      omega
    · simp only [natDigitsGo, if_neg h10]
      rw [digitsVal_append_one, ih (n / 10) (by omega), digitChar_toNat (n % 10) (by omega)]
      omega

theorem chars_intToStr (z : Int) :
    ∀ c ∈ intToStr z, c = '-' ∨ (48 ≤ c.toNat ∧ c.toNat ≤ 57) := by
  intro c hc
  unfold intToStr natDigits at hc
  split at hc
  · simp only [List.mem_cons] at hc
    rcases hc with rfl | hc
    · exact Or.inl rfl
    · exact Or.inr (chars_natDigitsGo _ _ le_rfl c hc)
  · exact Or.inr (chars_natDigitsGo _ _ le_rfl c hc)

theorem noSpace_intToStr (z : Int) : ∀ c ∈ intToStr z, pyIsSpace c = false := by
  intro c hc
  rcases chars_intToStr z c hc with rfl | ⟨h1, h2⟩
  · decide
  · simp only [pyIsSpace, Bool.or_eq_false_iff]
    refine ⟨⟨⟨⟨⟨?_, ?_⟩, ?_⟩, ?_⟩, ?_⟩, ?_⟩ <;>
      · simp only [decide_eq_false_iff_not]
        intro hh
        subst hh
        revert h1 h2
        decide

theorem no_colon_intToStr (z : Int) : ':' ∉ intToStr z := by
  intro hc
  rcases chars_intToStr z ':' hc with h | ⟨h1, h2⟩
  · cases h
  · revert h1 h2
    decide

theorem intToStr_ne_nil (z : Int) : intToStr z ≠ [] := by
  unfold intToStr natDigits
  split
  · simp
  · exact natDigitsGo_ne_nil _ _

theorem natDigits_all_digits (n : Nat) : (natDigits n).all pyIsDigit = true := by
  rw [List.all_eq_true]
  intro c hc
  have := chars_natDigitsGo n n le_rfl c hc
  simp only [pyIsDigit, Bool.and_eq_true, decide_eq_true_eq]
  omega

theorem pyIntParse_intToStr (z : Int) : pyIntParse (intToStr z) = some z := by
  have hstrip : pyStrip (intToStr z) = intToStr z :=
    pyStrip_eq_self_of_noSpace _ (noSpace_intToStr z)
  by_cases hz : z < 0
  · have hform : intToStr z = '-' :: natDigits z.natAbs := by
      unfold intToStr
      rw [if_pos hz]
    unfold pyIntParse
    rw [hstrip, hform]
    show (if !(natDigits z.natAbs).isEmpty && (natDigits z.natAbs).all pyIsDigit
          then some (-(digitsVal (natDigits z.natAbs) : Int)) else none) = some z
    rw [if_pos]
    · unfold natDigits
      rw [natDigitsGo_val z.natAbs z.natAbs le_rfl]
      congr 1
      omega
    · simp only [Bool.and_eq_true, natDigits_all_digits, and_true, Bool.not_eq_eq_eq_not,
        Bool.not_false]
      simpa using natDigitsGo_ne_nil z.natAbs z.natAbs
  · have hform : intToStr z = natDigits z.toNat := by
      unfold intToStr
      rw [if_neg hz]
    unfold pyIntParse
    rw [hstrip, hform]
    cases hcons : natDigits z.toNat with
    | nil => exact absurd hcons (natDigitsGo_ne_nil _ _)
    | cons d ds =>
      have hdmem : d ∈ natDigits z.toNat := by
        rw [hcons]
        exact List.mem_cons_self d ds
      have hdd : 48 ≤ d.toNat ∧ d.toNat ≤ 57 :=
        chars_natDigitsGo z.toNat z.toNat le_rfl d hdmem
      have hall := natDigits_all_digits z.toNat
      rw [hcons] at hall
      simp only [List.all_cons, Bool.and_eq_true] at hall
      split
      · rename_i heq
        cases heq
      · rename_i ds2 heq
        exfalso
        have hd : d = '+' := (List.cons.injEq _ _ _ _ ▸ heq).1
        subst hd
        revert hdd
        decide
      · rename_i ds2 heq
        exfalso
        have hd : d = '-' := (List.cons.injEq _ _ _ _ ▸ heq).1
        subst hd
        revert hdd
        decide
      · rename_i c2 ds2 heq
        cases heq
        rw [if_pos (by simp [hall.1, hall.2])]
        have hval : digitsVal (d :: ds) = z.toNat := by
          rw [← hcons]
          exact natDigitsGo_val z.toNat z.toNat le_rfl
        rw [hval]
        congr 1
        omega

theorem parseCountLine_roundtrip (k : PyStr) (z : Int) (hk : WfKey k) :
    parseCountLine (k ++ ':' :: ' ' :: (intToStr z ++ ['\n'])) = some (k, z) := by
  have htail : (intToStr z).reverse.dropWhile pyIsSpace = (intToStr z).reverse :=
    dropWhile_eq_self_of_noSpace
      (fun c hc => noSpace_intToStr z c (List.mem_reverse.mp hc))
  have hstrip := pyStrip_wrap k (intToStr z) hk.1 (intToStr_ne_nil z) htail
  unfold parseCountLine
  rw [hstrip, pySplitCS_append_sep k _ hk.2.1,
    pySplitCS_no_sep _ (hasCS_of_no_colon _ (no_colon_intToStr z))]
  show (match pyIntParse (intToStr z) with
        | some n => some (k, n)
        | none => none) = some (k, z)
  rw [pyIntParse_intToStr z]

/-! ## C3: file-level round trip -/

theorem alSet_fresh [DecidableEq α] (m : List (α × β)) (k : α) (v : β)
    (h : alGet m k = none) : alSet m k v = m ++ [(k, v)] := by
  unfold alSet
  rw [h]
  rfl

theorem lineMapFold_writes (p : PyStr → Option (PyStr × β))
    (lineOf : (PyStr × β) → PyStr) (entries : List (PyStr × β)) :
    ∀ acc : List (PyStr × β),
      (∀ pr ∈ entries, p (lineOf pr) = some pr) →
      ((acc.map Prod.fst) ++ (entries.map Prod.fst)).Nodup →
      (entries.map lineOf).foldl (lineMapStep p) acc = acc ++ entries := by
  induction entries with
  | nil =>
    intro acc _ _
    simp
  | cons pr tl ih =>
    intro acc hparse hkeys
    simp only [List.map_cons, List.foldl_cons]
    have hstep : lineMapStep p acc (lineOf pr) = acc ++ [pr] := by
      unfold lineMapStep
      rw [hparse pr (List.mem_cons_self pr tl)]
      apply alSet_fresh
      rw [alGet_eq_none_iff]
      simp only [List.map_cons, List.nodup_append, List.nodup_cons, List.disjoint_left,
        List.mem_cons] at hkeys
      intro hmem
      exact hkeys.2.2 hmem (Or.inl rfl)
    rw [hstep]
    have hre := ih (acc ++ [pr]) (fun q hq => hparse q (List.mem_cons_of_mem pr hq))
      (by simpa using hkeys)
    rw [hre]
    simp

theorem filter_isNone_eq_nil (p : PyStr → Option (PyStr × β)) (lines : List PyStr)
    (h : ∀ l ∈ lines, (p l).isNone = false) :
    (lines.filter fun line => (p line).isNone) = [] := by
  induction lines with
  | nil => rfl
  | cons l tl ih =>
    rw [List.filter_cons_of_neg (by simp [h l (List.mem_cons_self l tl)])]
    exact ih (fun q hq => h q (List.mem_cons_of_mem l hq))

/-- C3 counterexample: the claim includes keys with an empty name list,
but a key with an empty list is written as the line `"pmid1: \n"`, which
strips to `"pmid1:"`; `split(': ')` then yields one part, the unpacking
raises `ValueError` and the line is skipped — the re-parsed map is empty,
so the key is dropped, not recovered. -/
theorem c3_roundtrip_counterexample :
    (parseNamesFile (write_results [("pmid1".toList, ([] : List PyStr))])).1 = [] ∧
      (parseNamesFile (write_results [("pmid1".toList, ([] : List PyStr))])).2 =
        ["pmid1: \n".toList] ∧
      ([] : List (PyStr × List PyStr)) ≠ [("pmid1".toList, ([] : List PyStr))] :=
  ⟨by decide, by decide, by decide⟩

/-- C3 amended: writing and re-parsing recovers exactly the original
mapping (and logs no warnings) for every mapping whose keys are trimmed,
`": "`-free and newline-free with unique key sets, and — for the names
artifact — whose name lists are non-empty with each name trimmed,
non-empty, and free of `": "`, `','` and newlines; a key with an empty
name list is dropped by the parser (see the counterexample), and the
newline-freedom marks the line-granularity file model. -/
theorem c3_roundtrip_amended (results : List (PyStr × List PyStr))
    (counts : List (PyStr × Int))
    (hrk : (results.map Prod.fst).Nodup)
    (hrw : ∀ pr ∈ results, WfKey pr.1 ∧ pr.2 ≠ [] ∧ ∀ n ∈ pr.2, WfName n)
    (hck : (counts.map Prod.fst).Nodup)
    (hcw : ∀ pr ∈ counts, WfKey pr.1) :
    parseNamesFile (write_results results) = (results, []) ∧
      parseCountsFile (write_citation_counts counts) = (counts, []) := by
  constructor
  · have hparse : ∀ pr ∈ results,
        parseNamesLine (pr.1 ++ ':' :: ' ' :: (pyJoin (',' :: ' ' :: []) pr.2 ++ ['\n'])) =
          some pr := by
      intro pr hpr
      have h := parseNamesLine_roundtrip pr.1 pr.2 (hrw pr hpr).1 (hrw pr hpr).2.1
        (hrw pr hpr).2.2
      simpa using h
    rw [parseNamesFile_eq]
    apply Prod.ext
    · rw [lineFold_fst]
      have hw : write_results results = results.map
          (fun pr => pr.1 ++ ':' :: ' ' :: (pyJoin (',' :: ' ' :: []) pr.2 ++ ['\n'])) := rfl
      rw [hw, lineMapFold_writes parseNamesLine _ results [] hparse (by simpa using hrk)]
      simp
    · rw [lineFold_snd]
      show [] ++ (write_results results).filter
          (fun line => (parseNamesLine line).isNone) = []
      rw [List.nil_append, filter_isNone_eq_nil]
      intro l hl
      unfold write_results at hl
      obtain ⟨pr, hpr, rfl⟩ := List.mem_map.mp hl
      rw [hparse pr hpr]
      rfl
  · have hparse : ∀ pr ∈ counts,
        parseCountLine (pr.1 ++ ':' :: ' ' :: (intToStr pr.2 ++ ['\n'])) = some pr := by
      intro pr hpr
      have h := parseCountLine_roundtrip pr.1 pr.2 (hcw pr hpr)
      simpa using h
    rw [parseCountsFile_eq]
    apply Prod.ext
    · rw [lineFold_fst]
      have hw : write_citation_counts counts = counts.map
          (fun pr => pr.1 ++ ':' :: ' ' :: (intToStr pr.2 ++ ['\n'])) := rfl
      rw [hw, lineMapFold_writes parseCountLine _ counts [] hparse (by simpa using hck)]
      simp
    · rw [lineFold_snd]
      show [] ++ (write_citation_counts counts).filter
          (fun line => (parseCountLine line).isNone) = []
      rw [List.nil_append, filter_isNone_eq_nil]
      intro l hl
      unfold write_citation_counts at hl
      obtain ⟨pr, hpr, rfl⟩ := List.mem_map.mp hl
      rw [hparse pr hpr]
      rfl

/-- C3 witness: a concrete two-entry names mapping and two-entry counts
mapping; all well-formedness and key-uniqueness hypotheses are discharged
by evaluation, and writing then re-parsing recovers both mappings with no
skipped-line warnings. -/
theorem c3_roundtrip_amended_witness :
    parseNamesFile (write_results
        [("pmid1".toList, ["GeneX".toList, "GeneY".toList]),
          ("pmid2".toList, ["GeneX".toList])]) =
      ([("pmid1".toList, ["GeneX".toList, "GeneY".toList]),
        ("pmid2".toList, ["GeneX".toList])], []) ∧
      parseCountsFile (write_citation_counts
        [("pmid1".toList, 10), ("pmid2".toList, 5)]) =
        ([("pmid1".toList, 10), ("pmid2".toList, 5)], []) :=
  c3_roundtrip_amended
    [("pmid1".toList, ["GeneX".toList, "GeneY".toList]), ("pmid2".toList, ["GeneX".toList])]
    [("pmid1".toList, 10), ("pmid2".toList, 5)]
    (by decide) (by decide) (by decide) (by decide)
